import Mathlib

/-!
Verification development for the DevOps DNS-watcher agent implemented in
src/week1/llm_agent.py.  Python strings are modelled as lists of characters;
the side-effecting tools are modelled as pure functions over explicit
environments and state values.  Every definition is translated from the
source of llm_agent.py; the doc comment of each definition names the source
function it embeds.
-/

/-- ASCII whitespace, the characters matched by the regex class for
whitespace and stripped by the Python strip method on the inputs this
program handles (space, tab, newline, carriage return, vertical tab,
form feed). -/
def isWS (c : Char) : Bool :=
  c = ' ' || c = '\t' || c = '\n' || c = '\r' || c = '\x0b' || c = '\x0c'

/-- ASCII decimal digit, the regex digit class. -/
def isDigit (c : Char) : Bool := '0' ≤ c && c ≤ '9'

/-- Regex word character (letters, digits, underscore), used by the
word-boundary assertion. -/
def isWord (c : Char) : Bool :=
  ('a' ≤ c && c ≤ 'z') || ('A' ≤ c && c ≤ 'Z') || isDigit c || c = '_'

/-- Python str.strip with no argument: remove leading and trailing
whitespace. -/
def pyStrip (l : List Char) : List Char :=
  ((l.dropWhile isWS).reverse.dropWhile isWS).reverse

/-- Python substring membership test, the `in` operator on strings. -/
def pyContains (needle : List Char) : List Char → Bool
  | [] => needle.isEmpty
  | c :: r => needle.isPrefixOf (c :: r) || pyContains needle r

/-- The scan of Python str.replace(f, nv): substitute every
non-overlapping occurrence of f, scanning left to right.  The scan is
written with explicit fuel so that it is structurally recursive; every
step consumes at least one character, so any fuel of at least the length
of the text gives the behavior of the unbounded Python loop.  The guard
requires f nonempty; the program never calls replace with an empty
pattern (the first branch of replace_ip_literal requires a truthy old_ip,
and the fallback pattern cannot match the empty string), so the function
agrees with Python on every reachable input. -/
def pyReplaceGo (f nv : List Char) : Nat → List Char → List Char
  | _, [] => []
  | 0, t => t
  | fuel + 1, c :: r =>
    if f ≠ [] ∧ f.isPrefixOf (c :: r) then
      nv ++ pyReplaceGo f nv fuel ((c :: r).drop f.length)
    else
      c :: pyReplaceGo f nv fuel r

/-- Python str.replace(f, nv) over a whole text. -/
def pyReplaceAll (f nv : List Char) (t : List Char) : List Char :=
  pyReplaceGo f nv t.length t

/-- The loop of the Python dict.fromkeys based deduplication: keep the
first occurrence of each element, preserving first-seen order.  Explicit
fuel keeps the recursion structural; any fuel of at least the length of
the list gives the behavior of the unbounded loop because the filtered
tail is never longer than the tail. -/
def firstDedupGo {α : Type} [DecidableEq α] : Nat → List α → List α
  | _, [] => []
  | 0, l => l
  | fuel + 1, x :: xs => x :: firstDedupGo fuel (xs.filter (fun y => y ≠ x))

/-- Python dict.fromkeys based deduplication. -/
def firstDedup {α : Type} [DecidableEq α] (l : List α) : List α :=
  firstDedupGo l.length l

/-- Python keyPath.split(".")[-1]: the segment after the last dot. -/
def lastSegment (s : List Char) : List Char :=
  (s.reverse.takeWhile (fun c => c ≠ '.')).reverse

/-! ### The IPv4 literal regex

The program twice uses the regex of one to three digits, then a dot,
repeated three times, then one to three digits, with a word boundary on
each side (in dns_once and in replace_ip_literal).  Bounded greedy digit
repetition followed by a forced literal is deterministic: the group of one
to three digits then a dot succeeds exactly when the leading digit run has
length one to three and the next character is the dot, because shorter
backtracked runs always face a digit where the dot is required; the final
digit run with a trailing word boundary succeeds exactly when the run has
length one to three and the following character is a non-word character or
the end.  The functions below implement that deterministic reading. -/

/-- Length of the leading digit run. -/
def digitRun (cs : List Char) : Nat := (cs.takeWhile isDigit).length

/-- Try to match one group of one to three digits followed by a dot at the
head of cs; return the remainder after the dot. -/
def ipv4Group (cs : List Char) : Option (List Char) :=
  let r := digitRun cs
  if 1 ≤ r ∧ r ≤ 3 ∧ (cs.drop r).head? = some '.' then
    some (cs.drop (r + 1))
  else
    none

/-- Word-boundary test on the character preceding the current position:
holds at the start of the text or after a non-word character. -/
def boundaryBefore (prev : Option Char) : Bool :=
  match prev with
  | none => true
  | some p => !isWord p

/-- Word-boundary test after a digit: holds at the end of the text or
before a non-word character. -/
def boundaryAfter (cs : List Char) : Bool :=
  match cs.head? with
  | none => true
  | some d => !isWord d

/-- Try to match the whole IPv4 pattern at the start of c :: rest, with
prev the character before the current position (none at the start of the
text), enforcing the word boundaries.  Returns j such that the match is
c :: rest.take j (so the match has length j + 1). -/
def ipv4At (prev : Option Char) (c : Char) (rest : List Char) : Option Nat :=
  if boundaryBefore prev then
    match ipv4Group (c :: rest) with
    | none => none
    | some s2 =>
      match ipv4Group s2 with
      | none => none
      | some s3 =>
        match ipv4Group s3 with
        | none => none
        | some s4 =>
          let r := digitRun s4
          if 1 ≤ r ∧ r ≤ 3 ∧ boundaryAfter (s4.drop r) then
            some ((c :: rest).length - s4.length + r - 1)
          else
            none
  else
    none

/-- The scanning loop of re.findall for the IPv4 pattern: try the pattern
at every position from left to right; after a match, resume immediately
after it (non-overlapping matches).  Explicit fuel keeps the recursion
structural; every step consumes at least one character, so any fuel of at
least the length of the text gives the behavior of the unbounded scan. -/
def findallGo : Nat → Option Char → List Char → List (List Char)
  | _, _, [] => []
  | 0, _, _ => []
  | fuel + 1, prev, c :: rest =>
    match ipv4At prev c rest with
    | some j =>
        (c :: rest.take j) ::
          findallGo fuel (some ((rest.take j).getLastD c)) (rest.drop j)
    | none => findallGo fuel (some c) rest

/-- re.findall of the IPv4 literal pattern over a whole text. -/
def findallIPv4 (text : List Char) : List (List Char) :=
  findallGo text.length none text

/-! ### The yaml_update key-line regex

yaml_update compiles the multiline pattern: start of line, a captured run
of whitespace, the escaped terminal key segment, optional whitespace, a
colon, optional whitespace, then a lazy run of non-newline characters up
to end of line; it substitutes the first match by the captured indentation,
the key, a colon, a space and the quoted new value.

The engine scans positions left to right; the start-of-line anchor limits
attempts to position zero and positions after a newline.  At an anchored
position the captured whitespace run is greedy with backtracking, so
candidate capture lengths are tried from the longest whitespace run
downward; for each candidate the literal key, then optional whitespace and
a colon must follow.  The whitespace run before the colon is deterministic
(a shorter run would put a whitespace character where the colon is
required, and the colon is not whitespace), as is the tail: the greedy
whitespace run after the colon followed by the lazy non-newline run ending
at the first end of line always succeeds.  tryMatchGo implements exactly
this backtracking order. -/

/-- Length of the leading whitespace run. -/
def wsRun (cs : List Char) : Nat := (cs.takeWhile isWS).length

/-- The part of the pattern after the key: optional whitespace, a colon,
optional whitespace, then the lazy non-newline run up to end of line.
Returns the remainder of the text after the match end. -/
def afterKey (r1 : List Char) : Option (List Char) :=
  match r1.dropWhile isWS with
  | ':' :: r3 => some ((r3.dropWhile isWS).dropWhile (fun c => c ≠ '\n'))
  | _ => none

/-- Backtracking search for the captured indentation length: try capture
length l from l0 downward; at each candidate the key must follow the
capture and afterKey must succeed.  Returns the capture length and the
remainder after the match. -/
def tryMatchGo (key cs : List Char) : Nat → Option (Nat × List Char)
  | 0 =>
    match (if key.isPrefixOf cs then afterKey (cs.drop key.length) else none) with
    | some rest => some (0, rest)
    | none => none
  | l + 1 =>
    match (if key.isPrefixOf (cs.drop (l + 1)) then
            afterKey (cs.drop (l + 1 + key.length)) else none) with
    | some rest => some (l + 1, rest)
    | none => tryMatchGo key cs l

/-- Attempt the key-line pattern at an anchored position: the greedy
captured whitespace run starts at the longest whitespace run. -/
def tryMatchAt (key cs : List Char) : Option (Nat × List Char) :=
  tryMatchGo key cs (wsRun cs)

/-- The scan of pattern.subn with count one: walk the text, attempting the
pattern at position zero and after every newline; on the first match,
substitute the captured indentation, the key, a colon, a space and the
quoted new value, and keep the remainder unchanged.  Returns none when the
pattern matches nowhere. -/
def findSub (key nv : List Char) : Bool → List Char → Option (List Char)
  | ls, cs =>
    match (if ls then tryMatchAt key cs else none) with
    | some (l, rest) =>
        some (cs.take l ++ key ++ ':' :: ' ' :: '"' :: (nv ++ '"' :: rest))
    | none =>
      match cs with
      | [] => none
      | c :: r => (findSub key nv (c = '\n') r).map (fun t => c :: t)

/-! ### Tool result types -/

/-- Result of yaml_update: the changed flag and the resulting file
content. -/
structure MutResult where
  changed : Bool
  content : List Char
deriving DecidableEq

/-- Result of git_commit_push. -/
structure PublishResult where
  pushed : Bool
  reason : Option (List Char)
deriving DecidableEq

/-- Result of notify_teams. -/
structure NotifyResult where
  sent : Bool
  reason : Option (List Char)
  status : Option Int
  error : Option (List Char)
deriving DecidableEq

/-- Result of get_last_ip. -/
structure LastIpResult where
  ip : List Char
deriving DecidableEq

/-! ### dns_once -/

/-- Address family values returned by getaddrinfo; the source keeps only
entries whose family is AF_INET. -/
inductive AddrFamily where
  | inet
  | inet6
  | other
deriving DecidableEq

/-- Environment of one dns_once call: the outcome of the nslookup
subprocess (none models a raised exception such as a timeout, otherwise
the return code and captured standard output), and the outcome of
getaddrinfo (none models a raised exception, otherwise the list of
family and address pairs). -/
structure DnsEnv where
  nslookup : Option (Int × List Char)
  getaddrinfo : Option (List (AddrFamily × List Char))

/-- The nslookup half of dns_once: on a zero return code, all IPv4
pattern matches in the captured output; on a nonzero return code or an
exception, the empty list. -/
def nslookupIPv4 (env : DnsEnv) : List (List Char) :=
  match env.nslookup with
  | some (0, out) => findallIPv4 out
  | _ => []

/-- The getaddrinfo fallback of dns_once: keep AF_INET entries, take
their addresses, and deduplicate keeping first occurrences; an exception
yields the empty list. -/
def socketIPv4 (env : DnsEnv) : List (List Char) :=
  match env.getaddrinfo with
  | some infos =>
      firstDedup ((infos.filter (fun a => a.1 = AddrFamily.inet)).map
        (fun a => a.2))
  | none => []

/-- dns_once: try nslookup, then the socket fallback; never raises. -/
def dns_once (env : DnsEnv) : List (List Char) :=
  let ipv4 := nslookupIPv4 env
  if ipv4 ≠ [] then ipv4 else socketIPv4 env

/-! ### stabilize_dns

The loop is modelled with explicit fuel (the source caps the loop at
queries times five iterations), an attempt counter i that indexes the
resolver oracle, and the three loop variables stable, count and all_last.
The resolver argument models dns_once at each attempt; time.sleep has no
observable effect in the embedding.  The returned Nat is the index after
the last attempt, that is the number of resolver invocations made. -/

def stabilizeGo (res : Nat → List (List Char)) (queries : Nat) :
    Nat → Nat → List Char → Nat → List (List Char) →
    ((List Char × List (List Char)) × Nat)
  | 0, i, stable, _count, allLast => ((stable, allLast), i)
  | fuel + 1, i, stable, count, allLast =>
    let ipv4 := res i
    let primary := ipv4.headD []
    if primary = [] then
      stabilizeGo res queries fuel (i + 1) stable count allLast
    else
      let stable2 := if primary = stable then stable else primary
      let count2 := if primary = stable then count + 1 else 1
      if queries ≤ count2 then ((stable2, ipv4), i + 1)
      else stabilizeGo res queries fuel (i + 1) stable2 count2 ipv4

/-- stabilize_dns: require queries consecutive identical first addresses,
within a budget of queries times five attempts.  delay_sec only feeds
time.sleep in the source and is unused in the pure embedding. -/
def stabilize_dns (res : Nat → List (List Char)) (queries : Nat)
    (_delay_sec : Nat) : ((List Char × List (List Char)) × Nat) :=
  stabilizeGo res queries (queries * 5) 0 [] 0 []

/-! ### State store -/

/-- get_last_ip: read the state file and strip the content; a missing
file yields the empty string.  The state file is modelled as an optional
content. -/
def get_last_ip (st : Option (List Char)) : LastIpResult :=
  match st with
  | some content => ⟨pyStrip content⟩
  | none => ⟨[]⟩

/-- set_last_ip: overwrite the state file with the given string exactly
as passed (no stripping on write); returns the new state. -/
def set_last_ip (ip : List Char) (_st : Option (List Char)) :
    Option (List Char) :=
  some ip

/-! ### Config mutator -/

/-- yaml_update: line-based replacement of the scalar at the terminal
segment of the dotted key path, replacing at most the first match and
quoting the new value.  Returns the changed flag and the content of the
file after the call (the source writes the new content back only when a
substitution happened). -/
def yaml_update (keyPath nv content : List Char) : MutResult :=
  match findSub (lastSegment keyPath) nv true content with
  | none => ⟨false, content⟩
  | some t => ⟨true, t⟩

/-- replace_ip_literal: when old_ip is nonempty and occurs in the text,
replace every occurrence of old_ip; otherwise find the first IPv4-shaped
literal and replace every occurrence of it; when neither applies report
no change.  Returns the changed flag and the file content after the
call. -/
def replace_ip_literal (old nv text : List Char) : Bool × List Char :=
  if old ≠ [] ∧ pyContains old text then
    let t2 := pyReplaceAll old nv text
    (t2 ≠ text, t2)
  else
    match findallIPv4 text with
    | f :: _ => let t2 := pyReplaceAll f nv text; (t2 ≠ text, t2)
    | [] => (false, text)

/-! ### Change publisher -/

/-- The four git invocations of git_commit_push, in order. -/
inductive GitCmd where
  | add
  | status
  | commit
  | push
deriving DecidableEq

/-- Environment of one git_commit_push call: the outcome of each
underlying invocation through the _run helper, which raises on a nonzero
exit code (modelled by the error case of Except, carrying the message). -/
structure GitEnv where
  addOut : Except (List Char) Unit
  statusOut : Except (List Char) (List Char)
  commitOut : Except (List Char) Unit
  pushOut : Except (List Char) Unit

/-- git_commit_push: stage everything, inspect the stripped porcelain
status; an empty status returns pushed false with reason no changes and
performs no commit and no push; otherwise commit and push.  The second
component records which git commands were executed, in order; an error
from _run propagates (the source has no handler). -/
def git_commit_push (env : GitEnv) :
    Except (List Char) PublishResult × List GitCmd :=
  match env.addOut with
  | .error e => (.error e, [.add])
  | .ok _ =>
    match env.statusOut with
    | .error e => (.error e, [.add, .status])
    | .ok s =>
      if pyStrip s = [] then
        (.ok ⟨false, some ("no changes".data)⟩, [.add, .status])
      else
        match env.commitOut with
        | .error e => (.error e, [.add, .status, .commit])
        | .ok _ =>
          match env.pushOut with
          | .error e => (.error e, [.add, .status, .commit, .push])
          | .ok _ => (.ok ⟨true, none⟩, [.add, .status, .commit, .push])

/-! ### Notifier -/

/-- The scheme test of the urllib Request constructor: the url type is
the nonempty prefix of characters other than colon and slash that is
followed by a colon (the splittype regular expression).  Construction of
the request succeeds exactly when such a prefix exists; otherwise it
raises ValueError (unknown url type). -/
def urlHasType (url : List Char) : Bool :=
  let pre := url.takeWhile (fun c => c ≠ ':' && c ≠ '/')
  pre ≠ [] ∧ (url.drop pre.length).head? = some ':'

/-- Environment of one notify_teams call: the configured webhook URL (the
empty string models an unset TEAMS_WEBHOOK_URL) and the outcome of the
urlopen call that runs inside the try block (error carries the caught
exception text, ok carries the HTTP status).  The Request construction
that precedes the try block is not part of this outcome: whether it
raises is determined by the URL itself, through urlHasType. -/
structure TeamsEnv where
  webhookUrl : List Char
  post : Except (List Char) Int

/-- notify_teams: with no webhook configured return sent false with a
reason.  Otherwise the Request constructor runs before the try block and
raises ValueError when the nonempty URL has no scheme prefix; nothing
catches that, so it propagates to the caller (the error case of the
result).  With a scheme-bearing URL, urlopen runs inside the try: a
failure is caught and reported as sent false with the exception text,
and only a successful POST yields sent true.  title and text only shape
the posted payload. -/
def notify_teams (env : TeamsEnv) (_title _text : List Char) :
    Except (List Char) NotifyResult :=
  if env.webhookUrl = [] then
    .ok ⟨false, some ("no webhook".data), none, none⟩
  else if urlHasType env.webhookUrl then
    match env.post with
    | .ok st => .ok ⟨true, none, some st, none⟩
    | .error e => .ok ⟨false, none, none, some e⟩
  else
    .error ("unknown url type ".data ++ env.webhookUrl)

/-! ### Tool registry and dispatch -/

/-- The keys of the TOOLS_IMPL registry, in source order. -/
def TOOLS_IMPL_names : List (List Char) :=
  ["stabilize_dns".data, "get_last_ip".data, "set_last_ip".data,
   "read_file".data, "yaml_update".data, "replace_ip_literal".data,
   "git_commit_push".data, "notify_teams".data]

/-- Outcome of call_tool.  The source line for a registered name reads
  return TOOLS_IMPLname
which references the undefined identifier TOOLS_IMPLname (the intended
expression indexes TOOLS_IMPL by name and calls the implementation with
the unpacked arguments).  Evaluating the undefined identifier raises
NameError, which the blanket exception handler turns into an error
dictionary holding the text of the NameError.  Consequently a successful
dispatch outcome is never produced. -/
inductive CallResult where
  | errorUnknownTool (name : List Char)
  | errorNameError
  | ok (v : List Char)
deriving DecidableEq

/-- call_tool: unknown names yield the unknown-tool error dictionary;
registered names reach the body, whose undefined identifier raises
NameError, caught and returned as an error dictionary.  args is accepted
but never consulted because the NameError occurs before any call. -/
def call_tool (name : List Char) (_args : List (List Char × List Char)) :
    CallResult :=
  if TOOLS_IMPL_names.contains name then
    CallResult.errorNameError
  else
    CallResult.errorUnknownTool name

/-! ### Orchestration loop -/

/-- Failure classes of the chat completions call. -/
inductive ApiError where
  | auth
  | badRequest
  | rateLimited
  | serverError
  | timeout
  | connection
deriving DecidableEq

/-- One tool call requested by the model. -/
structure ToolCall where
  id : List Char
  fn : List Char
  args : List (List Char × List Char)

/-- One chat response: the requested tool calls (empty when the model
returned a final text) and the assistant content. -/
structure ChatResponse where
  toolCalls : List ToolCall
  content : List Char

/-- Conversation messages; tool results are appended correlated by call
id and carrying the call_tool outcome. -/
inductive Msg where
  | plain (role : List Char) (content : List Char)
  | toolResult (id fn : List Char) (result : CallResult)

/-- The while-true loop of main: issue the chat completions call on the
current messages; an exception from the call propagates (the source wraps
the call in no handler and no retry); when tool calls are returned,
execute each through call_tool, append the results and continue; when no
tool calls are returned the content is the final answer.  The source loop
is unbounded; fuel makes the embedding total, and exhaustion returns ok
none. -/
def mainLoop (svc : List Msg → Except ApiError ChatResponse) :
    Nat → List Msg → Except ApiError (Option (List Char))
  | 0, _ => .ok none
  | fuel + 1, msgs =>
    match svc msgs with
    | .error e => .error e
    | .ok resp =>
      match resp.toolCalls with
      | [] => .ok (some resp.content)
      | tcs =>
          mainLoop svc fuel
            (msgs ++ tcs.map (fun tc =>
              Msg.toolResult tc.id tc.fn (call_tool tc.fn tc.args)))

/-! ## Theorems -/

theorem isPrefixOfIff {l1 l2 : List Char} :
    l1.isPrefixOf l2 = true ↔ l1 <+: l2 :=
  List.isPrefixOf_iff_prefix

/-! ### Helper lemmas on strip -/

theorem pyStrip_length_aux (l : List Char) :
    (pyStrip l).length ≤ (l.dropWhile isWS).length := by
  rw [pyStrip]
  rw [List.length_reverse]
  calc ((l.dropWhile isWS).reverse.dropWhile isWS).length
      ≤ (l.dropWhile isWS).reverse.length := (List.dropWhile_sublist _).length_le
    _ = (l.dropWhile isWS).length := List.length_reverse _

theorem pyStrip_eq_self_iff (l : List Char) :
    pyStrip l = l ↔
      (∀ c, l.head? = some c → isWS c = false) ∧
      (∀ c, l.getLast? = some c → isWS c = false) := by
  constructor
  · intro h
    constructor
    · intro c hc
      by_contra hws
      have hws2 : isWS c = true := by
        cases hx : isWS c
        · exact absurd hx hws
        · rfl
      obtain ⟨r, rfl⟩ : ∃ r, l = c :: r := by
        cases l with
        | nil => simp at hc
        | cons a r =>
          refine ⟨r, ?_⟩
          simp only [List.head?_cons, Option.some.injEq] at hc
          rw [hc]
      have h1 : ((c :: r).dropWhile isWS).length ≤ r.length := by
        rw [List.dropWhile_cons, if_pos hws2]
        exact (List.dropWhile_sublist _).length_le
      have h2 : (pyStrip (c :: r)).length ≤ r.length :=
        le_trans (pyStrip_length_aux _) h1
      rw [h] at h2
      simp at h2
    · intro c hc
      by_contra hws
      have hws2 : isWS c = true := by
        cases hx : isWS c
        · exact absurd hx hws
        · rfl
      have hrev : l.reverse.head? = some c := by
        rw [List.head?_reverse]; exact hc
      rcases hd : l.dropWhile isWS with _ | ⟨d, ds⟩
      · have : pyStrip l = [] := by rw [pyStrip, hd]; simp
        rw [h] at this
        subst this
        simp at hc
      · have hne : l.dropWhile isWS ≠ [] := by rw [hd]; simp
        have hsplit : l = l.takeWhile isWS ++ l.dropWhile isWS :=
          (List.takeWhile_append_dropWhile isWS l).symm
        have hrev2 : l.reverse =
            (l.dropWhile isWS).reverse ++ (l.takeWhile isWS).reverse := by
          conv_lhs => rw [hsplit]
          rw [List.reverse_append]
        obtain ⟨t2, ht2⟩ : ∃ t2, (l.dropWhile isWS).reverse = c :: t2 := by
          rcases hr : (l.dropWhile isWS).reverse with _ | ⟨a, t⟩
          · exact absurd (by simpa using congrArg List.length hr) (by simpa using hne)
          · refine ⟨t, ?_⟩
            have : l.reverse.head? = some a := by
              rw [hrev2, hr]; rfl
            rw [hrev] at this
            obtain rfl : a = c := by
              simpa using this.symm
            rfl
        have hlen : (pyStrip l).length < l.length := by
          have e1 : (pyStrip l).length =
              ((l.dropWhile isWS).reverse.dropWhile isWS).length := by
            rw [pyStrip, List.length_reverse]
          have e2 : ((l.dropWhile isWS).reverse.dropWhile isWS).length ≤ t2.length := by
            rw [ht2, List.dropWhile_cons, if_pos hws2]
            exact (List.dropWhile_sublist _).length_le
          have e3 : t2.length + 1 = (l.dropWhile isWS).length := by
            have := congrArg List.length ht2
            simp at this
            omega
          have e4 : (l.dropWhile isWS).length ≤ l.length :=
            (List.dropWhile_sublist _).length_le
          omega
        rw [h] at hlen
        exact absurd hlen (lt_irrefl _)
  · rintro ⟨h1, h2⟩
    have e1 : l.dropWhile isWS = l := by
      cases l with
      | nil => rfl
      | cons a r =>
        have := h1 a rfl
        rw [List.dropWhile_cons, if_neg (by rw [this]; simp)]
    have e2 : l.reverse.dropWhile isWS = l.reverse := by
      rcases hr : l.reverse with _ | ⟨a, t⟩
      · rfl
      · have ha : l.getLast? = some a := by
          rw [← List.head?_reverse, hr]; rfl
        have := h2 a ha
        rw [List.dropWhile_cons, if_neg (by rw [this]; simp)]
    rw [pyStrip, e1, e2, List.reverse_reverse]

/-- Claim C10: after set_last_ip(ip), get_last_ip returns ip with surrounding
whitespace removed, hence the round trip returns ip exactly only when ip
has no leading and no trailing whitespace character. -/
theorem set_then_get_strips (st : Option (List Char)) (ip : List Char) :
    get_last_ip (set_last_ip ip st) = ⟨pyStrip ip⟩ ∧
    (get_last_ip (set_last_ip ip st) = ⟨ip⟩ ↔
      (∀ c, ip.head? = some c → isWS c = false) ∧
      (∀ c, ip.getLast? = some c → isWS c = false)) := by
  refine ⟨rfl, ?_⟩
  have h : get_last_ip (set_last_ip ip st) = ⟨pyStrip ip⟩ := rfl
  rw [h]
  rw [LastIpResult.mk.injEq]
  exact pyStrip_eq_self_iff ip

/-- Witness for C10 at a concrete input with surrounding whitespace. -/
theorem set_then_get_strips_witness :
    get_last_ip (set_last_ip (" 1.2.3.4 ".data) none) = ⟨"1.2.3.4".data⟩ := by
  have h := (set_then_get_strips none (" 1.2.3.4 ".data)).1
  rw [h]
  decide

/-- Claim C9 counterexample: with a nonempty webhook URL lacking a
scheme prefix, the Request constructor raises ValueError outside the try
block and notify_teams propagates the exception instead of returning a
sent false result, refuting the never-propagates claim. -/
theorem notify_teams_raises_counterexample :
    notify_teams ⟨"hooks.example.com/abc".data, .ok 200⟩
        ("t".data) ("x".data) =
      .error ("unknown url type ".data ++ "hooks.example.com/abc".data) := by
  rfl

/-- Claim C9 amended: notify_teams never propagates an exception except
when the nonempty webhook URL has no scheme prefix, where the Request
construction before the try block raises uncaught; with no webhook URL
it returns sent false with a reason, with a scheme-bearing URL a POST
failure is caught into sent false with the error text, and sent true
occurs only when the POST succeeded. -/
theorem notify_teams_cases (env : TeamsEnv) (title text : List Char) :
    (env.webhookUrl = [] →
      notify_teams env title text =
        .ok ⟨false, some ("no webhook".data), none, none⟩) ∧
    (env.webhookUrl ≠ [] → urlHasType env.webhookUrl = false →
      notify_teams env title text =
        .error ("unknown url type ".data ++ env.webhookUrl)) ∧
    (∀ e, env.webhookUrl ≠ [] → urlHasType env.webhookUrl = true →
      env.post = .error e →
      notify_teams env title text = .ok ⟨false, none, none, some e⟩) ∧
    (∀ r, notify_teams env title text = .ok r → r.sent = true →
      env.webhookUrl ≠ [] ∧ urlHasType env.webhookUrl = true ∧
      ∃ stc, env.post = .ok stc) := by
  refine ⟨?_, ?_, ?_, ?_⟩
  · intro h
    rw [notify_teams, if_pos h]
  · intro h1 h2
    rw [notify_teams, if_neg h1, if_neg (by rw [h2]; simp)]
  · intro e h1 h2 h3
    rw [notify_teams, if_neg h1, if_pos h2, h3]
  · intro r hr hs
    by_cases h1 : env.webhookUrl = []
    · rw [notify_teams, if_pos h1] at hr
      simp only [Except.ok.injEq] at hr
      rw [← hr] at hs
      simp at hs
    · by_cases h2 : urlHasType env.webhookUrl = true
      · refine ⟨h1, h2, ?_⟩
        rcases h3 : env.post with e | stc
        · rw [notify_teams, if_neg h1, if_pos h2, h3] at hr
          simp only [Except.ok.injEq] at hr
          rw [← hr] at hs
          simp at hs
        · exact ⟨stc, rfl⟩
      · rw [notify_teams, if_neg h1, if_neg h2] at hr
        simp at hr

/-- Witness for the amended C9: a scheme-bearing URL with a failing POST
is caught and reported, not raised. -/
theorem notify_teams_cases_witness :
    notify_teams ⟨"https://h.example/hook".data, .error ("timeout".data)⟩
        ("t".data) ("x".data) =
      .ok ⟨false, none, none, some ("timeout".data)⟩ :=
  (notify_teams_cases ⟨"https://h.example/hook".data,
      .error ("timeout".data)⟩ ("t".data) ("x".data)).2.2.1
    ("timeout".data) (by decide) (by decide) rfl

/-- Claim C6: git_commit_push returns pushed true only when the stripped status
was nonempty; an empty status yields pushed false with reason no changes
and executes neither commit nor push, so a second call on a clean tree is
again a no-op. -/
theorem git_commit_push_gated (env : GitEnv) (s : List Char)
    (hadd : env.addOut = .ok ()) (hst : env.statusOut = .ok s) :
    (pyStrip s = [] →
      git_commit_push env =
        (.ok ⟨false, some ("no changes".data)⟩, [.add, .status])) ∧
    (∀ r, (git_commit_push env).1 = .ok r → r.pushed = true →
      pyStrip s ≠ []) := by
  constructor
  · intro hempty
    rw [git_commit_push, hadd, hst]
    simp [hempty]
  · intro r hr hp
    by_contra hempty
    have hval : git_commit_push env =
        (.ok ⟨false, some ("no changes".data)⟩, [.add, .status]) := by
      rw [git_commit_push, hadd, hst]
      simp [hempty]
    rw [hval] at hr
    simp only [Except.ok.injEq] at hr
    rw [← hr] at hp
    simp at hp

/-- Witness for C6: a clean working tree with a concrete environment. -/
theorem git_commit_push_gated_witness :
    git_commit_push ⟨.ok (), .ok ("  \n".data), .ok (), .ok ()⟩ =
      (.ok ⟨false, some ("no changes".data)⟩, [.add, .status]) :=
  (git_commit_push_gated ⟨.ok (), .ok ("  \n".data), .ok (), .ok ()⟩
    ("  \n".data) rfl rfl).1 (by decide)

/-- Claim C1: the registered-name dispatch of call_tool never reaches any tool
implementation: the body references the undefined identifier
TOOLS_IMPLname, so a registered name such as get_last_ip produces the
caught NameError dictionary instead of the result of the implementation,
while an unregistered name produces the unknown-tool error dictionary as
documented. -/
theorem call_tool_never_dispatches :
    call_tool ("get_last_ip".data) [] = CallResult.errorNameError ∧
    call_tool ("bogus".data) [] =
      CallResult.errorUnknownTool ("bogus".data) := by
  constructor
  · decide
  · decide

/-- Claim C2 counterexample: the orchestration loop issues the decision-service
call with no retry wrapper, so a first-attempt authentication failure
surfaces as an exception, not as an unavailable sentinel value. -/
theorem mainLoop_auth_counterexample :
    mainLoop (fun _ => .error ApiError.auth) 5 [] =
      .error ApiError.auth := by
  rw [mainLoop]

/-- Claim C2 amended: every decision-service call in the loop is issued
directly; the first failure of any class propagates immediately out of
the loop, with no retry, no backoff and no sentinel value. -/
theorem mainLoop_propagates (svc : List Msg → Except ApiError ChatResponse)
    (fuel : Nat) (msgs : List Msg) (e : ApiError)
    (h : svc msgs = .error e) :
    mainLoop svc (fuel + 1) msgs = .error e := by
  rw [mainLoop, h]

/-- Witness for the amended C2 at a concrete failing service. -/
theorem mainLoop_propagates_witness :
    mainLoop (fun _ => .error ApiError.rateLimited) 3 [] =
      .error ApiError.rateLimited :=
  mainLoop_propagates (fun _ => .error ApiError.rateLimited) 2 []
    ApiError.rateLimited rfl

/-! ### Stabilizer lemmas -/

theorem stabilizeGo_conv (res : Nat → List (List Char)) (q : Nat)
    (a : List Char) (hres : ∀ k, (res k).headD [] = a) (ha : a ≠ []) :
    ∀ d fuel i c al, 1 ≤ d → c + d = q → d ≤ fuel →
      stabilizeGo res q fuel i a c al = ((a, res (i + d - 1)), i + d) := by
  intro d
  induction d with
  | zero => intro fuel i c al h1; omega
  | succ d ih =>
    intro fuel i c al _ hcq hfuel
    obtain ⟨f, rfl⟩ : ∃ f, fuel = f + 1 := ⟨fuel - 1, by omega⟩
    rw [stabilizeGo]
    simp only [hres i, ha, eq_self_iff_true, ite_true, ite_false,
      if_neg, if_pos]
    by_cases hq : q ≤ c + 1
    · have hd0 : d = 0 := by omega
      subst hd0
      rw [if_pos hq]
      simp
    · rw [if_neg hq]
      have := ih f (i + 1) (c + 1) (res i) (by omega) (by omega) (by omega)
      rw [this]
      have e1 : i + 1 + d - 1 = i + (d + 1) - 1 := by omega
      have e2 : i + 1 + d = i + (d + 1) := by omega
      rw [e1, e2]

/-- Claim C4: with a resolver whose first address is the same nonempty value at
every attempt, stabilize_dns converges after exactly queries attempts and
reports that value as primary (and the last observed address list). -/
theorem stabilize_dns_converges (res : Nat → List (List Char))
    (q dl : Nat) (a : List Char) (hq : 1 ≤ q)
    (hres : ∀ k, (res k).headD [] = a) (ha : a ≠ []) :
    stabilize_dns res q dl = ((a, res (q - 1)), q) := by
  rw [stabilize_dns]
  obtain ⟨f, hf⟩ : ∃ f, q * 5 = f + 1 := ⟨q * 5 - 1, by omega⟩
  rw [hf, stabilizeGo]
  simp only [hres 0]
  rw [if_neg ha, if_neg ha, if_neg ha]
  by_cases hq1 : q ≤ 1
  · have : q = 1 := by omega
    subst this
    rw [if_pos le_rfl]
  · rw [if_neg hq1]
    have := stabilizeGo_conv res q a hres ha (q - 1) f 1 1 (res 0)
      (by omega) (by omega) (by omega)
    rw [this]
    have e1 : 1 + (q - 1) - 1 = q - 1 := by omega
    have e2 : 1 + (q - 1) = q := by omega
    rw [e1, e2]

/-- Witness for C4 with a concrete constant resolver and three required
matches. -/
theorem stabilize_dns_converges_witness :
    stabilize_dns (fun _ => ["10.0.0.5".data]) 3 0 =
      (("10.0.0.5".data, ["10.0.0.5".data]), 3) :=
  stabilize_dns_converges (fun _ => ["10.0.0.5".data]) 3 0
    ("10.0.0.5".data) (by omega) (fun _ => rfl) (by decide)

theorem stabilizeGo_stable_ne_nil (res : Nat → List (List Char)) (q : Nat) :
    ∀ fuel i s c al p all j, s ≠ [] →
      stabilizeGo res q fuel i s c al = ((p, all), j) → p ≠ [] := by
  intro fuel
  induction fuel with
  | zero =>
    intro i s c al p all j hs h
    rw [stabilizeGo] at h
    simp only [Prod.mk.injEq] at h
    rw [← h.1.1]
    exact hs
  | succ f ih =>
    intro i s c al p all j hs h
    rw [stabilizeGo] at h
    by_cases hp : (res i).headD [] = []
    · rw [if_pos hp] at h
      exact ih _ _ _ _ _ _ _ hs h
    · rw [if_neg hp] at h
      by_cases heq : (res i).headD [] = s
      · rw [if_pos heq, if_pos heq] at h
        by_cases hqc : q ≤ c + 1
        · rw [if_pos hqc] at h
          simp only [Prod.mk.injEq] at h
          rw [← h.1.1]
          exact hs
        · rw [if_neg hqc] at h
          exact ih _ _ _ _ _ _ _ hs h
      · rw [if_neg heq, if_neg heq] at h
        by_cases hqc : q ≤ 1
        · rw [if_pos hqc] at h
          simp only [Prod.mk.injEq] at h
          rw [← h.1.1]
          exact hp
        · rw [if_neg hqc] at h
          exact ih _ _ _ _ _ _ _ hp h

theorem stabilizeGo_empty_all (res : Nat → List (List Char)) (q : Nat) :
    ∀ fuel i s c al p all j,
      stabilizeGo res q fuel i s c al = ((p, all), j) → p = [] →
      ∀ k, i ≤ k → k < j → (res k).headD [] = [] := by
  intro fuel
  induction fuel with
  | zero =>
    intro i s c al p all j h _ k hik hkj
    rw [stabilizeGo] at h
    simp only [Prod.mk.injEq] at h
    rw [← h.2] at hkj
    omega
  | succ f ih =>
    intro i s c al p all j h hpnil k hik hkj
    rw [stabilizeGo] at h
    by_cases hp : (res i).headD [] = []
    · rw [if_pos hp] at h
      by_cases hk : k = i
      · rw [hk]; exact hp
      · exact ih _ _ _ _ _ _ _ h hpnil k (by omega) hkj
    · rw [if_neg hp] at h
      exfalso
      by_cases heq : (res i).headD [] = s
      · rw [if_pos heq, if_pos heq] at h
        by_cases hqc : q ≤ c + 1
        · rw [if_pos hqc] at h
          simp only [Prod.mk.injEq] at h
          rw [← heq] at h
          exact hp (h.1.1 ▸ hpnil)
        · rw [if_neg hqc] at h
          have := stabilizeGo_stable_ne_nil res q f (i + 1) _ _ _ p all j
            (heq ▸ hp) h
          exact this hpnil
      · rw [if_neg heq, if_neg heq] at h
        by_cases hqc : q ≤ 1
        · rw [if_pos hqc] at h
          simp only [Prod.mk.injEq] at h
          exact hp (h.1.1 ▸ hpnil)
        · rw [if_neg hqc] at h
          have := stabilizeGo_stable_ne_nil res q f (i + 1) _ _ _ p all j hp h
          exact this hpnil

/-- Claim C5: the outcome of stabilize_dns has an empty primary only when every
attempt made within the budget observed no address, and an attempt that
observes no address passes the candidate, its consecutive count and the
last address list through unchanged (it only consumes one attempt
slot). -/
theorem stabilize_dns_empty_primary (res : Nat → List (List Char))
    (q dl : Nat) (p : List Char) (all : List (List Char)) (att : Nat)
    (h : stabilize_dns res q dl = ((p, all), att)) :
    (p = [] → ∀ k, k < att → (res k).headD [] = []) ∧
    (∀ fuel i s c al, (res i).headD [] = [] →
      stabilizeGo res q (fuel + 1) i s c al =
        stabilizeGo res q fuel (i + 1) s c al) := by
  constructor
  · intro hp k hk
    rw [stabilize_dns] at h
    exact stabilizeGo_empty_all res q (q * 5) 0 [] 0 [] p all att h hp
      k (Nat.zero_le k) hk
  · intro fuel i s c al hempty
    rw [stabilizeGo, if_pos hempty]

/-- Witness for C5 with a concrete resolver that never observes an
address. -/
theorem stabilize_dns_empty_primary_witness :
    ((fun _ => ([] : List (List Char))) 2).headD [] = [] ∧
    stabilizeGo (fun _ => ([] : List (List Char))) 1 3 0 ("x".data) 0 [] =
      stabilizeGo (fun _ => ([] : List (List Char))) 1 2 1 ("x".data) 0 [] := by
  have h := stabilize_dns_empty_primary (fun _ => ([] : List (List Char)))
    1 0 [] [] 5 rfl
  exact ⟨h.1 rfl 2 (by omega), h.2 2 0 ("x".data) 0 [] rfl⟩

/-! ### Resolver lemmas -/

theorem firstDedupGo_sublist {α : Type} [DecidableEq α] :
    ∀ (fuel : Nat) (l : List α), l.length ≤ fuel →
      List.Sublist (firstDedupGo fuel l) l := by
  intro fuel
  induction fuel with
  | zero =>
    intro l hl
    have : l = [] := List.length_eq_zero.mp (by omega)
    subst this
    exact List.nil_sublist []
  | succ n ih =>
    intro l hl
    cases l with
    | nil => exact List.nil_sublist []
    | cons x xs =>
      refine List.Sublist.cons₂ x ?_
      have h1 : List.Sublist (firstDedupGo n (xs.filter (fun y => y ≠ x)))
          (xs.filter (fun y => y ≠ x)) := by
        refine ih _ ?_
        have := List.length_filter_le (fun y => y ≠ x) xs
        simp only [List.length_cons] at hl
        omega
      exact h1.trans (List.filter_sublist xs)

theorem firstDedup_sublist {α : Type} [DecidableEq α] (l : List α) :
    List.Sublist (firstDedup l) l :=
  firstDedupGo_sublist l.length l le_rfl

theorem firstDedupGo_nodup {α : Type} [DecidableEq α] :
    ∀ (fuel : Nat) (l : List α), l.length ≤ fuel →
      (firstDedupGo fuel l).Nodup := by
  intro fuel
  induction fuel with
  | zero =>
    intro l hl
    have : l = [] := List.length_eq_zero.mp (by omega)
    subst this
    exact List.nodup_nil
  | succ n ih =>
    intro l hl
    cases l with
    | nil => exact List.nodup_nil
    | cons x xs =>
      have hlen : (xs.filter (fun y => y ≠ x)).length ≤ n := by
        have := List.length_filter_le (fun y => y ≠ x) xs
        simp only [List.length_cons] at hl
        omega
      refine List.nodup_cons.mpr ⟨?_, ih _ hlen⟩
      intro hmem
      have hsub := (firstDedupGo_sublist n (xs.filter (fun y => y ≠ x))
        hlen).subset
      have := hsub hmem
      have := List.of_mem_filter this
      simp at this

theorem firstDedup_nodup {α : Type} [DecidableEq α] (l : List α) :
    (firstDedup l).Nodup :=
  firstDedupGo_nodup l.length l le_rfl

/-- Claim C7 counterexample: when nslookup succeeds and its output lists the
same address twice, dns_once returns it twice, so one resolution attempt
is not duplicate-free as claimed. -/
theorem dns_once_dup_counterexample :
    dns_once ⟨some (0, "1.2.3.4 1.2.3.4".data), none⟩ =
      ["1.2.3.4".data, "1.2.3.4".data] ∧
    ¬ (dns_once ⟨some (0, "1.2.3.4 1.2.3.4".data), none⟩).Nodup := by
  constructor
  · decide
  · decide

/-- Claim C7 amended: dns_once never raises and yields the empty list when both
mechanisms fail; the socket fallback yields a duplicate-free list of the
AF_INET addresses in first-seen order (an order-preserving sublist); but
the nslookup path yields every pattern match of the output in order and
may contain duplicates. -/
theorem dns_once_shape (env : DnsEnv) :
    (nslookupIPv4 env = [] → env.getaddrinfo = none → dns_once env = []) ∧
    (nslookupIPv4 env ≠ [] → dns_once env = nslookupIPv4 env) ∧
    (∀ infos, nslookupIPv4 env = [] → env.getaddrinfo = some infos →
      dns_once env =
        firstDedup ((infos.filter (fun a => a.1 = AddrFamily.inet)).map
          (fun a => a.2)) ∧
      (dns_once env).Nodup ∧
      List.Sublist (dns_once env)
        ((infos.filter (fun a => a.1 = AddrFamily.inet)).map
          (fun a => a.2))) := by
  refine ⟨?_, ?_, ?_⟩
  · intro hns hsock
    rw [dns_once, if_neg (by rw [hns]; simp)]
    rw [socketIPv4, hsock]
  · intro hns
    rw [dns_once, if_pos hns]
  · intro infos hns hsock
    have hd : dns_once env =
        firstDedup ((infos.filter (fun a => a.1 = AddrFamily.inet)).map
          (fun a => a.2)) := by
      rw [dns_once, if_neg (by rw [hns]; simp)]
      rw [socketIPv4, hsock]
    refine ⟨hd, ?_, ?_⟩
    · rw [hd]; exact firstDedup_nodup _
    · rw [hd]; exact firstDedup_sublist _

/-- Witness for the amended C7 with a concrete socket-fallback
environment containing a duplicate AF_INET entry. -/
theorem dns_once_shape_witness :
    dns_once ⟨some (1, "ignored".data),
        some [(AddrFamily.inet, "10.0.0.5".data),
              (AddrFamily.inet6, "fe80".data),
              (AddrFamily.inet, "10.0.0.5".data),
              (AddrFamily.inet, "10.0.0.6".data)]⟩ =
      ["10.0.0.5".data, "10.0.0.6".data] := by
  have h := (dns_once_shape ⟨some (1, "ignored".data),
      some [(AddrFamily.inet, "10.0.0.5".data),
            (AddrFamily.inet6, "fe80".data),
            (AddrFamily.inet, "10.0.0.5".data),
            (AddrFamily.inet, "10.0.0.6".data)]⟩).2.2
      [(AddrFamily.inet, "10.0.0.5".data),
       (AddrFamily.inet6, "fe80".data),
       (AddrFamily.inet, "10.0.0.5".data),
       (AddrFamily.inet, "10.0.0.6".data)] rfl rfl
  rw [h.1]
  decide

/-! ### Literal replacement lemmas -/

theorem pyReplaceGo_no_occ (f nv : List Char) :
    ∀ fuel t, t.length ≤ fuel → pyContains f t = false →
      pyReplaceGo f nv fuel t = t := by
  intro fuel
  induction fuel with
  | zero =>
    intro t hl _
    have : t = [] := List.length_eq_zero.mp (by omega)
    subst this
    rfl
  | succ n ih =>
    intro t hl hc
    cases t with
    | nil => rfl
    | cons c r =>
      rw [pyContains] at hc
      simp only [Bool.or_eq_false_iff] at hc
      rw [pyReplaceGo, if_neg (by simp [hc.1])]
      simp only [List.length_cons] at hl
      rw [ih r (by omega) hc.2]

theorem pyReplaceGo_single (f nv v : List Char) (hf : f ≠ [])
    (hv : pyContains f v = false) :
    ∀ u fuel, (u ++ f ++ v).length ≤ fuel →
      (∀ i, i < u.length → f.isPrefixOf ((u ++ f ++ v).drop i) = false) →
      pyReplaceGo f nv fuel (u ++ f ++ v) = u ++ nv ++ v := by
  intro u
  induction u with
  | nil =>
    intro fuel hl _
    obtain ⟨fc, ft, rfl⟩ : ∃ fc ft, f = fc :: ft := by
      cases f with
      | nil => exact absurd rfl hf
      | cons fc ft => exact ⟨fc, ft, rfl⟩
    simp only [List.nil_append] at hl ⊢
    obtain ⟨n, rfl⟩ : ∃ n, fuel = n + 1 := by
      refine ⟨fuel - 1, ?_⟩
      simp only [List.length_append, List.length_cons] at hl
      omega
    rw [show ((fc :: ft) ++ v) = fc :: (ft ++ v) from rfl, pyReplaceGo,
      if_pos ⟨hf, isPrefixOfIff.mpr (List.prefix_append _ _)⟩]
    rw [show fc :: (ft ++ v) = (fc :: ft) ++ v from rfl, List.drop_left]
    rw [pyReplaceGo_no_occ (fc :: ft) nv n v ?_ hv]
    · simp only [List.length_append, List.length_cons] at hl
      omega
  | cons c u2 ih =>
    intro fuel hl hu
    obtain ⟨n, rfl⟩ : ∃ n, fuel = n + 1 := by
      refine ⟨fuel - 1, ?_⟩
      simp only [List.cons_append, List.length_cons] at hl
      omega
    rw [show ((c :: u2) ++ f ++ v) = c :: (u2 ++ f ++ v) from rfl,
      pyReplaceGo]
    rw [if_neg]
    · have hu2 : ∀ i, i < u2.length →
          f.isPrefixOf ((u2 ++ f ++ v).drop i) = false := by
        intro i hi
        have := hu (i + 1) (by simp only [List.length_cons]; omega)
        rw [show ((c :: u2) ++ f ++ v) = c :: (u2 ++ f ++ v) from rfl,
          List.drop_succ_cons] at this
        exact this
      have hl2 : (u2 ++ f ++ v).length ≤ n := by
        simp only [List.cons_append, List.length_cons] at hl
        simp only [List.length_append] at hl ⊢
        omega
      rw [ih n hl2 hu2]
      simp
    · intro hcond
      have := hu 0 (by simp only [List.length_cons]; omega)
      rw [List.drop_zero] at this
      rw [show ((c :: u2) ++ f ++ v) = c :: (u2 ++ f ++ v) from rfl] at this
      rw [this] at hcond
      simp at hcond

theorem findallGo_head_ne_nil :
    ∀ fuel prev cs g gs, findallGo fuel prev cs = g :: gs → g ≠ [] := by
  intro fuel
  induction fuel with
  | zero =>
    intro prev cs g gs h
    cases cs with
    | nil => simp [findallGo] at h
    | cons c r => simp [findallGo] at h
  | succ n ih =>
    intro prev cs g gs h
    cases cs with
    | nil => simp [findallGo] at h
    | cons c r =>
      rw [findallGo] at h
      rcases hm : ipv4At prev c r with _ | j
      · rw [hm] at h
        exact ih _ _ _ _ h
      · rw [hm] at h
        simp only [List.cons.injEq] at h
        rw [← h.1]
        simp

/-- Claim C8 counterexample: with an empty old value and a text containing the
first-found IPv4 literal twice, replace_ip_literal rewrites both
occurrences, not only the first one. -/
theorem replace_ip_literal_counterexample :
    replace_ip_literal [] ("9.9.9.9".data) ("a 1.2.3.4 b 1.2.3.4".data) =
      (true, "a 9.9.9.9 b 9.9.9.9".data) ∧
    ("a 9.9.9.9 b 9.9.9.9".data : List Char) ≠
      "a 9.9.9.9 b 1.2.3.4".data := by
  constructor
  · decide
  · decide

/-- Claim C8 amended: in the fallback case (old value empty or absent) with at
least one IPv4 literal present, replace_ip_literal substitutes every
occurrence of the first-found literal (the Python full-string replace),
reporting changed exactly when the content differs; in particular when
that literal occurs exactly once, exactly that occurrence is replaced. -/
theorem replace_ip_literal_fallback (old nv text f : List Char)
    (fs : List (List Char))
    (hold : ¬(old ≠ [] ∧ pyContains old text = true))
    (hfind : findallIPv4 text = f :: fs) :
    (replace_ip_literal old nv text).2 = pyReplaceAll f nv text ∧
    ((replace_ip_literal old nv text).1 = true ↔
      pyReplaceAll f nv text ≠ text) ∧
    (∀ u v, text = u ++ f ++ v →
      (∀ i, i < u.length → f.isPrefixOf (text.drop i) = false) →
      pyContains f v = false →
      (replace_ip_literal old nv text).2 = u ++ nv ++ v) := by
  have hf : f ≠ [] := findallGo_head_ne_nil text.length none text f fs hfind
  have hval : replace_ip_literal old nv text =
      (decide (pyReplaceAll f nv text ≠ text), pyReplaceAll f nv text) := by
    rw [replace_ip_literal, if_neg hold, hfind]
  refine ⟨by rw [hval], by rw [hval]; simp, ?_⟩
  intro u v htext hu hv
  rw [hval]
  have : pyReplaceAll f nv text = u ++ nv ++ v := by
    rw [htext] at hu ⊢
    rw [pyReplaceAll]
    exact pyReplaceGo_single f nv v hf hv u (u ++ f ++ v).length le_rfl hu
  simpa using this

/-- Witness for the amended C8 at a concrete single-occurrence text. -/
theorem replace_ip_literal_fallback_witness :
    (replace_ip_literal [] ("7.7.7.7".data) ("x 1.2.3.4 y".data)).2 =
      "x 7.7.7.7 y".data := by
  have h := (replace_ip_literal_fallback [] ("7.7.7.7".data)
    ("x 1.2.3.4 y".data) ("1.2.3.4".data) [] (by decide) (by decide)).2.2
    ("x ".data) (" y".data) (by decide) (by decide) (by decide)
  rw [h]
  decide

/-! ### Key-line mutation: C3 -/

/-- Claim C3 counterexample: on a file containing the key line, the second
application of yaml_update with the same key path and new value reports
changed true again (the rewritten line still matches the pattern and the
source reports the substitution count, not a content difference), even
though the content is unchanged; the claim predicted changed false. -/
theorem yaml_update_counterexample :
    (yaml_update ("k".data) ("2".data) ("k: 1\n".data)).changed = true ∧
    (yaml_update ("k".data) ("2".data)
      ((yaml_update ("k".data) ("2".data) ("k: 1\n".data)).content)).content =
      (yaml_update ("k".data) ("2".data) ("k: 1\n".data)).content ∧
    (yaml_update ("k".data) ("2".data)
      ((yaml_update ("k".data) ("2".data) ("k: 1\n".data)).content)).changed =
      true := by
  refine ⟨by decide, by decide, by decide⟩

theorem wsRun_cons (c : Char) (r : List Char) :
    wsRun (c :: r) = if isWS c then wsRun r + 1 else 0 := by
  rw [wsRun, List.takeWhile_cons]
  split
  · simp [wsRun]
  · simp

theorem wsRun_le_length (cs : List Char) : wsRun cs ≤ cs.length :=
  ( List.takeWhile_prefix isWS).length_le

theorem take_all_ws :
    ∀ (cs : List Char) (l : Nat), l ≤ wsRun cs →
      ∀ c ∈ cs.take l, isWS c = true := by
  intro cs
  induction cs with
  | nil => intro l _ c hc; simp at hc
  | cons a r ih =>
    intro l hl c hc
    cases l with
    | zero => simp at hc
    | succ l2 =>
      rw [wsRun_cons] at hl
      by_cases ha : isWS a
      · rw [if_pos ha] at hl
        rw [List.take_succ_cons] at hc
        rcases List.mem_cons.mp hc with rfl | hc2
        · exact ha
        · exact ih l2 (by omega) c hc2
      · rw [if_neg ha] at hl
        omega

theorem wsRun_append_ws (A B : List Char) (hA : ∀ c ∈ A, isWS c = true) :
    wsRun (A ++ B) = A.length + wsRun B := by
  induction A with
  | nil => simp
  | cons a r ih =>
    rw [List.cons_append, wsRun_cons,
      if_pos (hA a (List.mem_cons_self a r))]
    rw [ih (fun c hc => hA c (List.mem_cons_of_mem a hc))]
    simp only [List.length_cons]
    omega

theorem wsRun_cons_neg (c : Char) (B : List Char) (hc : isWS c = false) :
    wsRun (c :: B) = 0 := by
  rw [wsRun_cons, hc]
  simp

theorem wsRun_append_le (A B : List Char) (k : Char)
    (hB : B.head? = some k) (hk : isWS k = false) :
    wsRun (A ++ B) ≤ A.length := by
  induction A with
  | nil =>
    cases B with
    | nil => simp at hB
    | cons b t =>
      obtain rfl : b = k := by simpa using hB
      simp [wsRun_cons_neg b t hk]
  | cons a r ih =>
    rw [List.cons_append, wsRun_cons]
    split
    · simp only [List.length_cons]
      omega
    · simp

theorem wsRun_append_stable (A B B2 : List Char) (k k2 : Char)
    (hB : B.head? = some k) (hk : isWS k = false)
    (hB2 : B2.head? = some k2) (hk2 : isWS k2 = false) :
    wsRun (A ++ B) = wsRun (A ++ B2) := by
  induction A with
  | nil =>
    cases B with
    | nil => simp at hB
    | cons b t =>
      cases B2 with
      | nil => simp at hB2
      | cons b2 t2 =>
        obtain rfl : b = k := by simpa using hB
        obtain rfl : b2 = k2 := by simpa using hB2
        simp [wsRun_cons_neg b t hk, wsRun_cons_neg b2 t2 hk2]
  | cons a r ih =>
    rw [List.cons_append, List.cons_append, wsRun_cons, wsRun_cons, ih]

theorem dropWhile_append_ne (p : Char → Bool) (A B : List Char)
    (d : Char) (ds : List Char) (hA : A.dropWhile p = d :: ds) :
    (A ++ B).dropWhile p = d :: (ds ++ B) := by
  rw [List.dropWhile_append, hA]
  simp

theorem dropWhile_append_empty (p : Char → Bool) (A B : List Char)
    (hA : A.dropWhile p = []) :
    (A ++ B).dropWhile p = B.dropWhile p := by
  rw [List.dropWhile_append, hA]
  simp

theorem afterKey_some_shape (r1 rest : List Char)
    (h : afterKey r1 = some rest) :
    ∃ m x, r1 = m ++ ':' :: x ∧ (∀ c ∈ m, isWS c = true) ∧
      rest = (x.dropWhile isWS).dropWhile (fun c => c ≠ '\n') := by
  rw [afterKey] at h
  split at h
  · rename_i r3 heq
    refine ⟨r1.takeWhile isWS, r3, ?_, ?_, ?_⟩
    · conv_lhs => rw [← List.takeWhile_append_dropWhile (p := isWS) (l := r1)]
      rw [heq]
    · intro c hc
      exact List.mem_takeWhile_imp hc
    · simpa using h.symm
  · exact absurd h (by simp)

theorem dropWhile_newline_head (y : List Char) :
    y.dropWhile (fun c => c ≠ '\n') = [] ∨
      (y.dropWhile (fun c => c ≠ '\n')).head? = some '\n' := by
  have h := List.head?_dropWhile_not (fun c => c ≠ '\n') y
  rcases hh : (y.dropWhile (fun c => c ≠ '\n')).head? with _ | x
  · left
    exact List.head?_eq_none_iff.mp hh
  · right
    rw [hh] at h
    have hx : x = '\n' := by simpa using h
    rw [hx]

theorem afterKey_quoted (nv rest : List Char) (hnv : '\n' ∉ nv)
    (hrest : rest = [] ∨ rest.head? = some '\n') :
    afterKey (':' :: ' ' :: '"' :: (nv ++ '"' :: rest)) = some rest := by
  rw [afterKey]
  have h1 : (':' :: ' ' :: '"' :: (nv ++ '"' :: rest)).dropWhile isWS =
      ':' :: (' ' :: '"' :: (nv ++ '"' :: rest)) := by
    rw [List.dropWhile_cons, if_neg (by decide)]
  rw [h1]
  have h2 : (' ' :: '"' :: (nv ++ '"' :: rest)).dropWhile isWS =
      '"' :: (nv ++ '"' :: rest) := by
    rw [List.dropWhile_cons, if_pos (by decide), List.dropWhile_cons,
      if_neg (by decide)]
  show some ((((' ' :: '"' :: (nv ++ '"' :: rest)).dropWhile isWS)).dropWhile
    (fun c => c ≠ '\n')) = some rest
  rw [h2]
  have h3 : ('"' :: (nv ++ '"' :: rest)) = ('"' :: nv ++ ['"']) ++ rest := by
    simp
  rw [h3]
  have h4 : ('"' :: nv ++ ['"']).dropWhile (fun c => c ≠ '\n') = [] := by
    rw [List.dropWhile_eq_nil_iff]
    intro x hx
    simp only [ne_eq, decide_eq_true_eq]
    intro hcontra
    subst hcontra
    rcases List.mem_cons.mp hx with h | h
    · exact absurd h (by decide)
    · rcases List.mem_append.mp h with h2 | h2
      · exact hnv h2
      · simp at h2
  rw [dropWhile_append_empty _ _ _ h4]
  rcases hrest with rfl | hh
  · rfl
  · cases rest with
    | nil => simp at hh
    | cons a t =>
      obtain rfl : a = '\n' := by simpa using hh
      rw [List.dropWhile_cons, if_neg (by simp)]

theorem tryMatchGo_some (key cs : List Char) :
    ∀ l0 l rest, tryMatchGo key cs l0 = some (l, rest) →
      l ≤ l0 ∧ key.isPrefixOf (cs.drop l) = true ∧
        afterKey (cs.drop (l + key.length)) = some rest := by
  intro l0
  induction l0 with
  | zero =>
    intro l rest h
    rw [tryMatchGo] at h
    split at h
    · rename_i r2 heq
      split at heq
      · rename_i hpre
        simp only [Option.some.injEq, Prod.mk.injEq] at h
        obtain ⟨rfl, rfl⟩ := h
        refine ⟨le_rfl, by simpa using hpre, ?_⟩
        simpa using heq
      · simp at heq
    · simp at h
  | succ l2 ih =>
    intro l rest h
    rw [tryMatchGo] at h
    split at h
    · rename_i r2 heq
      split at heq
      · rename_i hpre
        simp only [Option.some.injEq, Prod.mk.injEq] at h
        obtain ⟨rfl, rfl⟩ := h
        exact ⟨le_rfl, hpre, heq⟩
      · simp at heq
    · have := ih l rest h
      exact ⟨by omega, this.2.1, this.2.2⟩

theorem tryMatchGo_hit (key cs : List Char) (l0 : Nat) (rest : List Char)
    (hpre : key.isPrefixOf (cs.drop l0) = true)
    (hak : afterKey (cs.drop (l0 + key.length)) = some rest) :
    tryMatchGo key cs l0 = some (l0, rest) := by
  cases l0 with
  | zero =>
    rw [List.drop_zero] at hpre
    simp only [Nat.zero_add] at hak
    rw [tryMatchGo, if_pos hpre, hak]
  | succ l2 =>
    rw [tryMatchGo, if_pos hpre, hak]

theorem tryMatchGo_isSome_of (key cs : List Char) :
    ∀ l0 l rest, l ≤ l0 → key.isPrefixOf (cs.drop l) = true →
      afterKey (cs.drop (l + key.length)) = some rest →
      (tryMatchGo key cs l0).isSome = true := by
  intro l0
  induction l0 with
  | zero =>
    intro l rest hl hpre hak
    obtain rfl : l = 0 := by omega
    rw [tryMatchGo_hit key cs 0 rest hpre hak]
    rfl
  | succ l2 ih =>
    intro l rest hl hpre hak
    by_cases heq : l = l2 + 1
    · rw [heq] at hpre hak
      rw [tryMatchGo_hit key cs (l2 + 1) rest hpre hak]
      rfl
    · rw [tryMatchGo]
      split
      · rfl
      · exact ih l rest (by omega) hpre hak

theorem isPrefixOf_append_stable (key D B B2 : List Char)
    (hlen : key.length ≤ D.length) :
    key.isPrefixOf (D ++ B) = key.isPrefixOf (D ++ B2) := by
  have hgen : ∀ C : List Char, key.isPrefixOf (D ++ C) = true ↔
      key.isPrefixOf D = true := by
    intro C
    rw [isPrefixOfIff, isPrefixOfIff]
    constructor
    · intro h
      rw [List.prefix_iff_eq_take] at h ⊢
      rw [List.take_append_of_le_length hlen] at h
      exact h
    · intro h
      exact h.trans (List.prefix_append D C)
  by_cases hd : key.isPrefixOf D = true
  · rw [(hgen B).mpr hd, (hgen B2).mpr hd]
  · have e1 : key.isPrefixOf (D ++ B) = false := by
      cases hx : key.isPrefixOf (D ++ B)
      · rfl
      · exact absurd ((hgen B).mp hx) hd
    have e2 : key.isPrefixOf (D ++ B2) = false := by
      cases hx : key.isPrefixOf (D ++ B2)
      · rfl
      · exact absurd ((hgen B2).mp hx) hd
    rw [e1, e2]

theorem tryMatchAt_self (key nv : List Char) (hK : key ≠ [])
    (hKc : ∀ c ∈ key, isWS c = false ∧ c ≠ ':')
    (hnv : '\n' ∉ nv) (g1 rest : List Char)
    (hg1 : ∀ c ∈ g1, isWS c = true)
    (hrest : rest = [] ∨ rest.head? = some '\n') :
    tryMatchAt key (g1 ++ key ++ ':' :: ' ' :: '"' :: (nv ++ '"' :: rest)) =
      some (g1.length, rest) := by
  obtain ⟨k0, kt, rfl⟩ : ∃ k0 kt, key = k0 :: kt := by
    cases key with
    | nil => exact absurd rfl hK
    | cons k0 kt => exact ⟨k0, kt, rfl⟩
  have hk0 : isWS k0 = false := (hKc k0 (List.mem_cons_self _ _)).1
  have hassoc : g1 ++ (k0 :: kt) ++ ':' :: ' ' :: '"' :: (nv ++ '"' :: rest) =
      g1 ++ (k0 :: (kt ++ ':' :: ' ' :: '"' :: (nv ++ '"' :: rest))) := by
    simp
  have hws : wsRun (g1 ++ (k0 :: kt) ++
      ':' :: ' ' :: '"' :: (nv ++ '"' :: rest)) = g1.length := by
    rw [hassoc, wsRun_append_ws g1 _ hg1,
      wsRun_cons_neg k0 _ hk0]
    omega
  rw [tryMatchAt, hws]
  have hdrop : (g1 ++ (k0 :: kt) ++
      ':' :: ' ' :: '"' :: (nv ++ '"' :: rest)).drop g1.length =
      (k0 :: kt) ++ ':' :: ' ' :: '"' :: (nv ++ '"' :: rest) := by
    rw [List.append_assoc, List.drop_left]
  refine tryMatchGo_hit _ _ _ _ ?_ ?_
  · rw [hdrop]
    exact isPrefixOfIff.mpr (List.prefix_append _ _)
  · have hdrop2 : (g1 ++ (k0 :: kt) ++
        ':' :: ' ' :: '"' :: (nv ++ '"' :: rest)).drop
        (g1.length + (k0 :: kt).length) =
        ':' :: ' ' :: '"' :: (nv ++ '"' :: rest) := by
      rw [show g1.length + (k0 :: kt).length =
        (g1 ++ (k0 :: kt)).length by simp]
      rw [List.drop_left]
    rw [hdrop2]
    exact afterKey_quoted nv rest hnv hrest

theorem findSub_nil (key nv : List Char) (hK : key ≠ []) (ls : Bool) :
    findSub key nv ls [] = none := by
  have htm : tryMatchAt key [] = none := by
    rw [tryMatchAt]
    have hws : wsRun ([] : List Char) = 0 := rfl
    rw [hws, tryMatchGo]
    have hpre : key.isPrefixOf ([] : List Char) = false := by
      cases key with
      | nil => exact absurd rfl hK
      | cons a t => rfl
    rw [if_neg (by simp [hpre])]
  rw [findSub]
  cases ls
  · rfl
  · rw [htm]
    rfl

theorem findSub_decomp (key nv : List Char) (hK : key ≠ []) :
    ∀ cs ls out, findSub key nv ls cs = some out →
      ∃ P m x rest, cs = P ++ key ++ m ++ ':' :: x ∧
        out = P ++ key ++ ':' :: ' ' :: '"' :: (nv ++ '"' :: rest) ∧
        (∀ c ∈ m, isWS c = true) := by
  intro cs
  induction cs with
  | nil =>
    intro ls out h
    rw [findSub_nil key nv hK] at h
    simp at h
  | cons c r ih =>
    intro ls out h
    rw [findSub] at h
    split at h
    · rename_i l rest heq
      have htm : tryMatchAt key (c :: r) = some (l, rest) := by
        cases ls
        · simp at heq
        · simpa using heq
      simp only [Option.some.injEq] at h
      have hgo := tryMatchGo_some key (c :: r) (wsRun (c :: r)) l rest htm
      obtain ⟨hl, hpre, hak⟩ := hgo
      obtain ⟨m, x, hshape, hm, hrest⟩ :=
        afterKey_some_shape _ _ hak
      obtain ⟨t, ht⟩ := isPrefixOfIff.mp hpre
      have htdrop : t = (c :: r).drop (l + key.length) := by
        have := congrArg (List.drop key.length) ht
        rw [List.drop_left] at this
        rw [this, List.drop_drop]
      refine ⟨(c :: r).take l, m, x, rest, ?_, ?_, hm⟩
      · conv_lhs => rw [← List.take_append_drop l (c :: r)]
        rw [← ht, htdrop, hshape]
        simp
      · rw [← h]
    · rename_i heq
      replace h : (findSub key nv (c = '\n') r).map (fun t => c :: t) =
          some out := h
      rcases Option.map_eq_some'.mp h with ⟨out2, hout2, rfl⟩
      obtain ⟨P, m, x, rest, hcs, hout, hm⟩ := ih _ _ hout2
      refine ⟨c :: P, m, x, rest, ?_, ?_, hm⟩
      · rw [hcs]
        simp
      · rw [hout]
        simp

theorem tryMatchAt_transfer (key : List Char) (hK : key ≠ [])
    (hKc : ∀ c ∈ key, isWS c = false ∧ c ≠ ':') (U m m2 x x2 : List Char)
    (hm : ∀ c ∈ m, isWS c = true) (hm2 : ∀ c ∈ m2, isWS c = true)
    (h : (tryMatchAt key (U ++ key ++ m ++ ':' :: x)).isSome = true) :
    (tryMatchAt key (U ++ key ++ m2 ++ ':' :: x2)).isSome = true := by
  obtain ⟨k0, kt, hkey⟩ : ∃ k0 kt, key = k0 :: kt := by
    cases key with
    | nil => exact absurd rfl hK
    | cons k0 kt => exact ⟨k0, kt, rfl⟩
  have hk0 : isWS k0 = false := (hKc k0 (by rw [hkey]; exact List.mem_cons_self _ _)).1
  have eX : U ++ key ++ m ++ ':' :: x = U ++ (key ++ (m ++ ':' :: x)) := by
    simp
  have eX2 : U ++ key ++ m2 ++ ':' :: x2 =
      U ++ (key ++ (m2 ++ ':' :: x2)) := by
    simp
  rw [eX] at h
  rw [eX2]
  have hheadB : (key ++ (m ++ ':' :: x)).head? = some k0 := by
    rw [hkey]; rfl
  have hheadB2 : (key ++ (m2 ++ ':' :: x2)).head? = some k0 := by
    rw [hkey]; rfl
  obtain ⟨⟨l, rest⟩, hsome⟩ := Option.isSome_iff_exists.mp h
  rw [tryMatchAt] at hsome
  obtain ⟨hl, hpre, hak⟩ := tryMatchGo_some key _ _ l rest hsome
  have hwsle : wsRun (U ++ (key ++ (m ++ ':' :: x))) ≤ U.length :=
    wsRun_append_le U _ k0 hheadB hk0
  have hlU : l ≤ U.length := le_trans hl hwsle
  have hws2 : wsRun (U ++ (key ++ (m ++ ':' :: x))) =
      wsRun (U ++ (key ++ (m2 ++ ':' :: x2))) :=
    wsRun_append_stable U _ _ k0 k0 hheadB hk0 hheadB2 hk0
  have hdropX : (U ++ (key ++ (m ++ ':' :: x))).drop l =
      U.drop l ++ (key ++ (m ++ ':' :: x)) :=
    List.drop_append_of_le_length hlU
  have hdropX2 : (U ++ (key ++ (m2 ++ ':' :: x2))).drop l =
      U.drop l ++ (key ++ (m2 ++ ':' :: x2)) :=
    List.drop_append_of_le_length hlU
  have hpre2 : key.isPrefixOf
      ((U ++ (key ++ (m2 ++ ':' :: x2))).drop l) = true := by
    rw [hdropX2]
    rw [hdropX] at hpre
    have e1 : U.drop l ++ (key ++ (m ++ ':' :: x)) =
        (U.drop l ++ key) ++ (m ++ ':' :: x) := by simp
    have e2 : U.drop l ++ (key ++ (m2 ++ ':' :: x2)) =
        (U.drop l ++ key) ++ (m2 ++ ':' :: x2) := by simp
    rw [e1] at hpre
    rw [e2]
    rw [isPrefixOf_append_stable key (U.drop l ++ key) _ (m ++ ':' :: x)
      (by simp)]
    exact hpre
  have hq : l + key.length ≤ (U ++ key).length := by
    simp only [List.length_append]
    omega
  have hXq : (U ++ (key ++ (m ++ ':' :: x))).drop (l + key.length) =
      (U ++ key).drop (l + key.length) ++ (m ++ ':' :: x) := by
    rw [show U ++ (key ++ (m ++ ':' :: x)) =
      (U ++ key) ++ (m ++ ':' :: x) by simp]
    exact List.drop_append_of_le_length hq
  have hX2q : (U ++ (key ++ (m2 ++ ':' :: x2))).drop (l + key.length) =
      (U ++ key).drop (l + key.length) ++ (m2 ++ ':' :: x2) := by
    rw [show U ++ (key ++ (m2 ++ ':' :: x2)) =
      (U ++ key) ++ (m2 ++ ':' :: x2) by simp]
    exact List.drop_append_of_le_length hq
  rw [hXq] at hak
  have hak2 : ∃ rest2,
      afterKey ((U ++ key).drop (l + key.length) ++ (m2 ++ ':' :: x2)) =
        some rest2 := by
    rcases hE : ((U ++ key).drop (l + key.length)).dropWhile isWS with _ | ⟨d, ds⟩
    · have hm2nil : m2.dropWhile isWS = [] :=
        List.dropWhile_eq_nil_iff.mpr hm2
      rw [afterKey, dropWhile_append_empty _ _ _ hE,
        dropWhile_append_empty _ _ _ hm2nil, List.dropWhile_cons,
        if_neg (by decide)]
      exact ⟨_, rfl⟩
    · rw [afterKey, dropWhile_append_ne _ _ _ _ _ hE] at hak
      split at hak
      · rename_i r3 heq3
        have hd : d = ':' := by
          have := congrArg List.head? heq3
          simpa using this
        rw [afterKey, dropWhile_append_ne _ _ _ _ _ hE, hd]
        exact ⟨_, rfl⟩
      · simp at hak
  obtain ⟨rest2, hak2⟩ := hak2
  rw [← hX2q] at hak2
  rw [tryMatchAt]
  exact tryMatchGo_isSome_of key _ _ l rest2 (by rw [← hws2]; exact hl)
    hpre2 hak2

theorem findSub_eq (key nv : List Char) (ls : Bool) (cs : List Char) :
    findSub key nv ls cs =
      match (if ls then tryMatchAt key cs else none) with
      | some (l, rest) =>
          some (cs.take l ++ key ++ ':' :: ' ' :: '"' :: (nv ++ '"' :: rest))
      | none =>
        match cs with
        | [] => none
        | c :: r => (findSub key nv (c = '\n') r).map (fun t => c :: t) := by
  cases cs with
  | nil => rw [findSub]
  | cons c r => rw [findSub]

theorem findSub_idem (key nv : List Char) (hK : key ≠ [])
    (hKc : ∀ c ∈ key, isWS c = false ∧ c ≠ ':') (hnv : '\n' ∉ nv) :
    ∀ cs ls out, findSub key nv ls cs = some out →
      findSub key nv ls out = some out := by
  intro cs
  induction cs with
  | nil =>
    intro ls out h
    rw [findSub_nil key nv hK] at h
    simp at h
  | cons c r ih =>
    intro ls out h
    rw [findSub] at h
    split at h
    · rename_i l rest heq
      have hls : ls = true := by
        cases ls
        · simp at heq
        · rfl
      subst hls
      have htm : tryMatchAt key (c :: r) = some (l, rest) := by
        simpa using heq
      simp only [Option.some.injEq] at h
      obtain ⟨hl, hpre, hak⟩ := tryMatchGo_some key (c :: r) _ l rest htm
      have hg1 : ∀ ch ∈ (c :: r).take l, isWS ch = true :=
        take_all_ws _ _ hl
      have hlen : ((c :: r).take l).length = l := by
        rw [List.length_take]
        exact min_eq_left (le_trans hl (wsRun_le_length _))
      have hrest : rest = [] ∨ rest.head? = some '\n' := by
        obtain ⟨m, xx, hshape, hm, hrdef⟩ := afterKey_some_shape _ _ hak
        rw [hrdef]
        exact dropWhile_newline_head _
      have hself := tryMatchAt_self key nv hK hKc hnv ((c :: r).take l)
        rest hg1 hrest
      rw [hlen] at hself
      rw [← h, findSub_eq]
      rw [if_pos rfl, hself]
      have htake : ((c :: r).take l ++ key ++
          ':' :: ' ' :: '"' :: (nv ++ '"' :: rest)).take l =
          (c :: r).take l := by
        have hTL := List.take_left ((c :: r).take l)
          (key ++ ':' :: ' ' :: '"' :: (nv ++ '"' :: rest))
        rw [hlen] at hTL
        rw [show (c :: r).take l ++ key ++
          ':' :: ' ' :: '"' :: (nv ++ '"' :: rest) =
          (c :: r).take l ++ (key ++
            ':' :: ' ' :: '"' :: (nv ++ '"' :: rest)) by simp]
        exact hTL
      show some (((c :: r).take l ++ key ++
          ':' :: ' ' :: '"' :: (nv ++ '"' :: rest)).take l ++ key ++
          ':' :: ' ' :: '"' :: (nv ++ '"' :: rest)) = _
      rw [htake]
    · rename_i heq
      replace h : (findSub key nv (c = '\n') r).map (fun t => c :: t) =
          some out := h
      rcases Option.map_eq_some'.mp h with ⟨out2, hout2, rfl⟩
      have hidem := ih _ _ hout2
      rw [findSub]
      cases ls with
      | false =>
        show (findSub key nv (c = '\n') out2).map (fun t => c :: t) =
          some (c :: out2)
        rw [hidem]
        rfl
      | true =>
        have htmr : tryMatchAt key (c :: r) = none := by
          simpa using heq
        have hnone : tryMatchAt key (c :: out2) = none := by
          obtain ⟨P, m, xx, rest0, hcs, hout, hm⟩ :=
            findSub_decomp key nv hK r _ _ hout2
          by_contra hcontra
          have hsome : (tryMatchAt key (c :: out2)).isSome = true := by
            cases hx : tryMatchAt key (c :: out2)
            · exact absurd hx hcontra
            · rfl
          have e2 : c :: out2 = (c :: P) ++ key ++ ([] : List Char) ++
              ':' :: (' ' :: '"' :: (nv ++ '"' :: rest0)) := by
            rw [hout]
            simp
          rw [e2] at hsome
          have htrans := tryMatchAt_transfer key hK hKc (c :: P) []
            m (' ' :: '"' :: (nv ++ '"' :: rest0)) xx (by simp) hm hsome
          have e1 : (c :: P) ++ key ++ m ++ ':' :: xx = c :: r := by
            rw [hcs]
            simp
          rw [e1, htmr] at htrans
          simp at htrans
        rw [hnone]
        show (findSub key nv (c = '\n') out2).map (fun t => c :: t) =
          some (c :: out2)
        rw [hidem]
        rfl

/-- Claim C3 amended: for every file whose content matches the key-line pattern
for the terminal key segment (a nonempty segment with no whitespace and
no colon characters) and every new value containing no newline: the first
yaml_update call reports changed true, and the second call with the same
key path and new value leaves the content identical to the content after
the first call but again reports changed true (not changed false as
claimed), because the source reports the substitution count of the
pattern, which still matches the rewritten line. -/
theorem yaml_update_idempotent_content (keyPath nv content : List Char)
    (hkey : lastSegment keyPath ≠ [])
    (hchars : ∀ c ∈ lastSegment keyPath, isWS c = false ∧ c ≠ ':')
    (hnv : '\n' ∉ nv)
    (h1 : (yaml_update keyPath nv content).changed = true) :
    yaml_update keyPath nv ((yaml_update keyPath nv content).content) =
      ⟨true, (yaml_update keyPath nv content).content⟩ := by
  rcases hfs : findSub (lastSegment keyPath) nv true content with _ | t
  · rw [yaml_update, hfs] at h1
    simp at h1
  · have hcontent : (yaml_update keyPath nv content).content = t := by
      rw [yaml_update, hfs]
    rw [hcontent]
    have hstep := findSub_idem (lastSegment keyPath) nv hkey hchars hnv
      content true t hfs
    rw [yaml_update, hstep]

/-- Witness for the amended C3 at a concrete file and dotted key path. -/
theorem yaml_update_idempotent_content_witness :
    yaml_update ("a.k".data) ("2".data)
      ((yaml_update ("a.k".data) ("2".data) ("k: 1\n".data)).content) =
      ⟨true, (yaml_update ("a.k".data) ("2".data) ("k: 1\n".data)).content⟩ :=
  yaml_update_idempotent_content ("a.k".data) ("2".data) ("k: 1\n".data)
    (by decide) (by decide) (by decide) (by decide)
